import Mathlib

/-!
# Verification of the milestone-app core services

A shallow embedding, in Lean 4, of the parts of the `milestone-app` media
inventory manager that its specification makes claims about:

* the operations queue (`services/api/src/queue.py`),
* the background scanner's start guard (`services/api/src/scanner.py`),
* the filename parser (`services/api/src/parser.py`),
* the matcher's signature lookup (`services/api/src/matcher.py`),
* the verified copier and destination picker (`services/api/src/copier.py`),
* quarantine and restore (`services/api/src/routers/cleanup.py`).

Pure functions of the source become Lean functions; SQLite tables become
lists of row structures scanned in rowid order; the filesystem becomes a
finite map from paths to entries.  Machine arithmetic is modelled with
`Nat`/`Int`/`Rat` (Python integers are unbounded; the one float that occurs,
`file_size * 0.1`, is modelled as the exact rational `fileSize / 10`).
-/

namespace Milestone

/-! ## Operations queue (`queue.py`)

An `operations` row carries the fields that `update_operation_status` and the
per-operation control functions touch.  Timestamps are abstract `Nat` ticks
supplied by the caller (standing for `datetime.now().isoformat()`). -/

/-- One row of the `operations` table (the columns touched by
`update_operation_status`, `pause_operation`, `resume_operation`,
`cancel_operation`). -/
structure OpRow where
  status : String
  progress : Option Int
  error : Option String
  startedAt : Option Nat
  completedAt : Option Nat
  deriving Repr, DecidableEq

/-- `queue.update_operation_status(op_id, status, progress, error)`: builds the
SQL `UPDATE` unconditionally — the `status` column is always overwritten,
`progress`/`error` only when supplied, and `started_at`/`completed_at` are
stamped according to the new status. -/
def update_operation_status (status : String) (progress : Option Int)
    (error : Option String) (now : Nat) (row : OpRow) : OpRow :=
  let row := { row with status := status }
  let row := match progress with
    | some p => { row with progress := some p }
    | none => row
  let row := match error with
    | some e => { row with error := some e }
    | none => row
  if status = "running" then
    { row with startedAt := some now }
  else if status = "completed" ∨ status = "failed" ∨ status = "cancelled" then
    { row with completedAt := some now }
  else
    row

/-- `queue.pause_operation(op_id)`: pauses only a `pending` or `running`
operation; otherwise the row is untouched and `False` is returned. -/
def pause_operation (now : Nat) (row : OpRow) : Bool × OpRow :=
  if row.status = "pending" ∨ row.status = "running" then
    (true, update_operation_status "paused" none none now row)
  else
    (false, row)

/-- `queue.resume_operation(op_id)`: resumes only a `paused` operation. -/
def resume_operation (now : Nat) (row : OpRow) : Bool × OpRow :=
  if row.status = "paused" then
    (true, update_operation_status "pending" none none now row)
  else
    (false, row)

/-- `queue.cancel_operation(op_id)`: cancels only a `pending`, `running` or
`paused` operation. -/
def cancel_operation (now : Nat) (row : OpRow) : Bool × OpRow :=
  if row.status = "pending" ∨ row.status = "running" ∨ row.status = "paused" then
    (true, update_operation_status "cancelled" none none now row)
  else
    (false, row)

/-- The progress callback installed by `queue.process_operation` for a copy:
`update_operation_status(op_id, "running", progress=p)`, issued as a
fire-and-forget task for every copied chunk. -/
def progress_update (p : Int) (now : Nat) (row : OpRow) : OpRow :=
  update_operation_status "running" (some p) none now row

/-- A queue action that may reach an operation row after it was created:
the three per-operation control calls, or one of the copy task's
fire-and-forget progress updates. -/
inductive QueueAction where
  | pauseOp (now : Nat)
  | resumeOp (now : Nat)
  | cancelOp (now : Nat)
  | progressUpd (p : Int) (now : Nat)
  deriving Repr, DecidableEq

/-- Whether an action is one of the copy task's fire-and-forget progress
updates (as opposed to one of the three guarded control calls). -/
def QueueAction.isProgress : QueueAction → Bool
  | .progressUpd _ _ => true
  | _ => false

/-- Apply one `QueueAction` to a row. -/
def applyAction (a : QueueAction) (row : OpRow) : OpRow :=
  match a with
  | .pauseOp now => (pause_operation now row).2
  | .resumeOp now => (resume_operation now row).2
  | .cancelOp now => (cancel_operation now row).2
  | .progressUpd p now => progress_update p now row

/-- Apply a sequence of queue actions, first element first. -/
def applyActions (acts : List QueueAction) (row : OpRow) : OpRow :=
  acts.foldl (fun r a => applyAction a r) row

/-- The terminal statuses of an operation. -/
def isTerminal (s : String) : Prop :=
  s = "completed" ∨ s = "failed" ∨ s = "cancelled"

instance (s : String) : Decidable (isTerminal s) := by
  unfold isTerminal; infer_instance

/-- `queue.set_concurrency(limit)`: clamps the requested limit into `[1, 10]`
and stores it as the new concurrency; nothing is rejected.  The result is the
value written to `_queue_state["concurrency"]`. -/
def set_concurrency (limit : Int) : Int :=
  max 1 (min limit 10)

/-! ## Scanner start guard (`scanner.py`) -/

/-- `models.ScanState`. -/
inductive ScanState where
  | idle
  | running
  | paused
  | cancelled
  | completed
  deriving Repr, DecidableEq

/-- `scanner.start_scan`: rejects (returns `False`, spawning nothing) exactly
when the module-level `_scan_state` is `RUNNING`; in every other state it
creates a fresh `run_scan` task and returns `True`.  Result:
`(accepted, spawned a new scan task)`. -/
def start_scan (state : ScanState) : Bool × Bool :=
  if state = ScanState.running then
    (false, false)
  else
    (true, true)

/-! ## Filename parser (`parser.py`)

The regular expressions of `TV_PATTERNS` / `MOVIE_PATTERNS` are embedded as
backtracking matchers over `List Char`, mirroring Python `re` semantics for
these particular patterns: `pattern.match` anchors at the start, `(.+?)` is a
lazy group that cannot cross a newline, `[.\s_-]+`/`[.\s_-]*`/`\s*` munch
maximally (the following atom is never in the class, so no backtracking into
the class is possible), and `\d{1,2}` greedily tries two digits before one. -/

/-- The character class `[.\s_-]` (Python `\s` restricted to ASCII). -/
def isSepChar (c : Char) : Bool :=
  c = '.' || c = ' ' || c = '\t' || c = '\n' || c = '\r' ||
  c = '\x0b' || c = '\x0c' || c = '_' || c = '-'

/-- Python `\s` (ASCII). -/
def isSpaceChar (c : Char) : Bool :=
  c = ' ' || c = '\t' || c = '\n' || c = '\r' || c = '\x0b' || c = '\x0c'

/-- Numeric value of a digit character. -/
def digitVal (c : Char) : Nat := c.toNat - 48

/-- `re.sub(r'\.[^.]+$', '', filename)`: strip a trailing `.ext` whose
extension part is nonempty and dot-free. -/
def stripExt (cs : List Char) : List Char :=
  let r := cs.reverse
  if '.' ∈ r ∧ r.takeWhile (· ≠ '.') ≠ [] then
    ((r.dropWhile (· ≠ '.')).drop 1).reverse
  else cs

/-- Match one character case-insensitively (`target` given in lowercase). -/
def matchCI (target : Char) (cs : List Char) : Option (List Char) :=
  match cs with
  | c :: rest => if c.toLower = target then some rest else none
  | [] => none

/-- Match one literal character. -/
def matchLit (target : Char) (cs : List Char) : Option (List Char) :=
  match cs with
  | c :: rest => if c = target then some rest else none
  | [] => none

/-- Match a literal word case-insensitively. -/
def matchWordCI : List Char → List Char → Option (List Char)
  | [], cs => some cs
  | t :: ts, c :: cs => if c.toLower = t.toLower then matchWordCI ts cs else none
  | _ :: _, [] => none

/-- `[.\s_-]+`: at least one separator, maximal munch. -/
def seps1 (cs : List Char) : Option (List Char) :=
  match cs with
  | c :: rest => if isSepChar c then some (rest.dropWhile isSepChar) else none
  | [] => none

/-- `(\d{1,2})` followed by continuation `k`: greedily try two digits, and
backtrack to one digit if the continuation fails there. -/
def digits2then (k : Nat → List Char → Option α) (cs : List Char) : Option α :=
  match cs with
  | d1 :: rest1 =>
    if d1.isDigit then
      match rest1 with
      | d2 :: rest2 =>
        if d2.isDigit then
          match k (10 * digitVal d1 + digitVal d2) rest2 with
          | some a => some a
          | none => k (digitVal d1) rest1
        else k (digitVal d1) rest1
      | [] => k (digitVal d1) rest1
    else none
  | [] => none

/-- `(\d{1,2})` with nothing required after it: greedily take two digits if
available, else one. -/
def digits12 (cs : List Char) : Option (Nat × List Char) :=
  match cs with
  | d1 :: d2 :: rest =>
    if d1.isDigit then
      if d2.isDigit then some (10 * digitVal d1 + digitVal d2, rest)
      else some (digitVal d1, d2 :: rest)
    else none
  | [d1] => if d1.isDigit then some (digitVal d1, []) else none
  | [] => none

/-- `(\d{4})`: exactly four digits. -/
def digits4 (cs : List Char) : Option (Nat × List Char) :=
  match cs with
  | a :: b :: c :: d :: rest =>
    if a.isDigit && b.isDigit && c.isDigit && d.isDigit then
      some (1000 * digitVal a + 100 * digitVal b + 10 * digitVal c + digitVal d, rest)
    else none
  | _ => none

/-- The lazy anchored group `(.+?)` followed by `body`: grow the title one
character at a time (shortest first, never across a newline) until the rest of
the pattern matches the remainder. -/
def lazyTitleAux (body : List Char → Option α) :
    List Char → List Char → Option (List Char × α)
  | _, [] => none
  | acc, c :: rest =>
    if c = '\n' then none
    else
      match body rest with
      | some a => some ((c :: acc).reverse, a)
      | none => lazyTitleAux body (c :: acc) rest

/-- `^(.+?)` followed by `body`. -/
def lazyTitle (body : List Char → Option α) (cs : List Char) :
    Option (List Char × α) :=
  lazyTitleAux body [] cs

/-- TV pattern 1: `(.+?)[.\s_-]+[Ss](\d{1,2})[Ee](\d{1,2})`. -/
def tvPattern1 (cs : List Char) : Option (List Char × Nat × Nat) :=
  lazyTitle (fun r => do
    let r ← seps1 r
    let r ← matchCI 's' r
    digits2then (fun season r => do
      let r ← matchCI 'e' r
      let (ep, _) ← digits12 r
      pure (season, ep)) r) cs

/-- TV pattern 2: `(.+?)[.\s_-]+(\d{1,2})x(\d{1,2})` (case-insensitive). -/
def tvPattern2 (cs : List Char) : Option (List Char × Nat × Nat) :=
  lazyTitle (fun r => do
    let r ← seps1 r
    digits2then (fun season r => do
      let r ← matchCI 'x' r
      let (ep, _) ← digits12 r
      pure (season, ep)) r) cs

/-- TV pattern 3: `(.+?)[.\s_-]+Season\s*(\d{1,2})\s*Episode\s*(\d{1,2})`
(case-insensitive). -/
def tvPattern3 (cs : List Char) : Option (List Char × Nat × Nat) :=
  lazyTitle (fun r => do
    let r ← seps1 r
    let r ← matchWordCI "season".toList r
    digits2then (fun season r => do
      let r := r.dropWhile isSpaceChar
      let r ← matchWordCI "episode".toList r
      let r := r.dropWhile isSpaceChar
      let (ep, _) ← digits12 r
      pure (season, ep)) (r.dropWhile isSpaceChar)) cs

/-- TV pattern 4: `(.+?)[.\s_-]+[Ss](\d{1,2})[.\s_-]*[Ee](\d{1,2})`. -/
def tvPattern4 (cs : List Char) : Option (List Char × Nat × Nat) :=
  lazyTitle (fun r => do
    let r ← seps1 r
    let r ← matchCI 's' r
    digits2then (fun season r => do
      let r := r.dropWhile isSepChar
      let r ← matchCI 'e' r
      let (ep, _) ← digits12 r
      pure (season, ep)) r) cs

/-- Movie pattern 1: `(.+?)\s*\((\d{4})\)`. -/
def moviePattern1 (cs : List Char) : Option (List Char × Nat) :=
  lazyTitle (fun r => do
    let r := r.dropWhile isSpaceChar
    let r ← matchLit '(' r
    let (y, r) ← digits4 r
    let _ ← matchLit ')' r
    pure y) cs

/-- Movie pattern 2: `(.+?)[.\s_-]+(\d{4})(?:[.\s_-]|$)`. -/
def moviePattern2 (cs : List Char) : Option (List Char × Nat) :=
  lazyTitle (fun r => do
    let r ← seps1 r
    let (y, r) ← digits4 r
    match r with
    | [] => pure y
    | c :: _ => if isSepChar c then pure y else none) cs

/-- Python `str.split()` (split on whitespace runs, dropping empties). -/
def wordsAux : List Char → List Char → List (List Char)
  | acc, [] => if acc.isEmpty then [] else [acc.reverse]
  | acc, c :: rest =>
    if isSpaceChar c then
      if acc.isEmpty then wordsAux [] rest else acc.reverse :: wordsAux [] rest
    else wordsAux (c :: acc) rest

/-- Python `str.title()`: uppercase every letter that follows a non-letter,
lowercase every letter that follows a letter (ASCII). -/
def pyTitle : Bool → List Char → List Char
  | _, [] => []
  | prevCased, c :: rest =>
    if c.isAlpha then
      (if prevCased then c.toLower else c.toUpper) :: pyTitle true rest
    else c :: pyTitle false rest

/-- Python `str.strip()` (ASCII whitespace). -/
def stripWS (cs : List Char) : List Char :=
  ((cs.dropWhile isSpaceChar).reverse.dropWhile isSpaceChar).reverse

/-- `parser.clean_title`: replace `.`/`_` with spaces, collapse whitespace to
single spaces, title-case, strip. -/
def clean_title (cs : List Char) : List Char :=
  let replaced := cs.map (fun c => if c = '.' || c = '_' then ' ' else c)
  let collapsed := List.intercalate [' '] (wordsAux [] replaced)
  stripWS (pyTitle false collapsed)

/-- `parser.ParsedMedia`. -/
structure ParsedMedia where
  type : String
  title : Option String := none
  year : Option Nat := none
  season : Option Nat := none
  episode : Option Nat := none
  deriving Repr, DecidableEq

/-- `parser.parse_filename`: strip the extension, try the four TV patterns in
order, then the two movie patterns (a movie match with a year outside
`[1900, 2100]` falls through to the next pattern), else `unknown` with the
cleaned filename as title. -/
def parse_filename (filename : String) : ParsedMedia :=
  let name := stripExt filename.toList
  match tvPattern1 name with
  | some (t, s, e) =>
    { type := "tv_episode", title := some (String.mk (clean_title t)),
      season := some s, episode := some e }
  | none =>
  match tvPattern2 name with
  | some (t, s, e) =>
    { type := "tv_episode", title := some (String.mk (clean_title t)),
      season := some s, episode := some e }
  | none =>
  match tvPattern3 name with
  | some (t, s, e) =>
    { type := "tv_episode", title := some (String.mk (clean_title t)),
      season := some s, episode := some e }
  | none =>
  match tvPattern4 name with
  | some (t, s, e) =>
    { type := "tv_episode", title := some (String.mk (clean_title t)),
      season := some s, episode := some e }
  | none =>
  match moviePattern1 name with
  | some (t, y) =>
    if 1900 ≤ y ∧ y ≤ 2100 then
      { type := "movie", title := some (String.mk (clean_title t)), year := some y }
    else
      match moviePattern2 name with
      | some (t, y) =>
        if 1900 ≤ y ∧ y ≤ 2100 then
          { type := "movie", title := some (String.mk (clean_title t)), year := some y }
        else { type := "unknown", title := some (String.mk (clean_title name)) }
      | none => { type := "unknown", title := some (String.mk (clean_title name)) }
  | none =>
  match moviePattern2 name with
  | some (t, y) =>
    if 1900 ≤ y ∧ y ≤ 2100 then
      { type := "movie", title := some (String.mk (clean_title t)), year := some y }
    else { type := "unknown", title := some (String.mk (clean_title name)) }
  | none => { type := "unknown", title := some (String.mk (clean_title name)) }

/-! ## Matcher (`matcher.py`)

The catalog tables touched by `find_matching_item`, as lists of rows scanned
in rowid order. -/

/-- A `files` row (the columns `find_matching_item` reads). -/
structure FileRow where
  id : Nat
  quickSig : Option String
  fullHash : Option String
  deriving Repr, DecidableEq

/-- A `media_items` row. -/
structure ItemRow where
  id : Nat
  status : String
  deriving Repr, DecidableEq

/-- A `media_item_files` row. -/
structure LinkRow where
  itemId : Nat
  fileId : Nat
  deriving Repr, DecidableEq

/-- The part of the catalog `find_matching_item` sees. -/
structure MatchCatalog where
  files : List FileRow
  items : List ItemRow
  links : List LinkRow
  deriving Repr, DecidableEq

/-- Python truthiness of an `Optional[str]`: `None` and `""` are falsy. -/
def truthy : Option String → Bool
  | none => false
  | some s => !s.isEmpty

/-- The join
`media_items mi JOIN media_item_files mif ON mi.id = mif.media_item_id
JOIN files f ON mif.file_id = f.id WHERE f.<col> = ? LIMIT 1`,
scanning the link table in rowid order: the first link whose item exists and
whose file's column equals the probed value. -/
def joinLookup (cat : MatchCatalog) (col : FileRow → Option String)
    (v : String) : Option Nat :=
  (cat.links.find? (fun l =>
    cat.items.any (fun mi => mi.id = l.itemId) &&
    cat.files.any (fun f => f.id = l.fileId && col f = some v))).map (·.itemId)

/-- `UPDATE media_items SET status = 'needs_verification' WHERE id = ?`. -/
def setNeedsVerification (cat : MatchCatalog) (itemId : Nat) : MatchCatalog :=
  { cat with
    items := cat.items.map (fun mi =>
      if mi.id = itemId then { mi with status := "needs_verification" } else mi) }

/-- The primary lookup of `find_matching_item`: `if full_hash:` (truthy
test) guards the full-hash join. -/
def fullPrimary (fullHash : Option String) (cat : MatchCatalog) : Option Nat :=
  match fullHash with
  | some h => if h = "" then none else joinLookup cat (·.fullHash) h
  | none => none

/-- The fallback lookup of `find_matching_item`: `if quick_sig:` (truthy
test) guards the quick-signature join. -/
def quickFallback (quickSig : Option String) (cat : MatchCatalog) : Option Nat :=
  match quickSig with
  | some q => if q = "" then none else joinLookup cat (·.quickSig) q
  | none => none

/-- `matcher.find_matching_item(quick_sig, full_hash)`: both falsy → `None`;
otherwise try the full-hash join first (if `full_hash` is truthy), and if it
returned no row, fall through to the quick-signature join (if `quick_sig` is
truthy), which also marks the matched item `needs_verification`.
Returns `(item_id?, updated catalog)`. -/
def find_matching_item (quickSig fullHash : Option String)
    (cat : MatchCatalog) : Option Nat × MatchCatalog :=
  if !truthy quickSig && !truthy fullHash then
    (none, cat)
  else
    match fullPrimary fullHash cat with
    | some i => (some i, cat)
    | none =>
      match quickFallback quickSig cat with
      | some i => (some i, setNeedsVerification cat i)
      | none => (none, cat)

/-- Item `i` exists and is linked to a file whose column `col` equals `v`. -/
def LinkedWith (cat : MatchCatalog) (col : FileRow → Option String)
    (v : String) (i : Nat) : Prop :=
  (∃ mi ∈ cat.items, mi.id = i) ∧
  ∃ l ∈ cat.links, l.itemId = i ∧
    ∃ f ∈ cat.files, f.id = l.fileId ∧ col f = some v

/-- The primary full-hash lookup, when attempted (a truthy `full_hash`),
finds no linked item. -/
def NoFullMatch (fullHash : Option String) (cat : MatchCatalog) : Prop :=
  ∀ h, fullHash = some h → h ≠ "" → ∀ i, ¬ LinkedWith cat (·.fullHash) h i

/-! ## Stable sorting by a key

`ORDER BY <key> ASC` over a rowid-ordered table scan, and Python's
`list.sort` (Timsort), are stable sorts; both are modelled by insertion
sort on the key. -/

/-- Insert `a` in front of the first element whose key is not smaller
(keeping equal keys behind elements already present). -/
def ordInsertKey [LinearOrder β] (key : α → β) (a : α) : List α → List α
  | [] => [a]
  | b :: l => if key a ≤ key b then a :: b :: l else b :: ordInsertKey key a l

/-- Stable insertion sort by `key`, ascending. -/
def sortByKey [LinearOrder β] (key : α → β) : List α → List α
  | [] => []
  | a :: l => ordInsertKey key a (sortByKey key l)

/-! ## Queue fetch (`queue.get_pending_operations`) -/

/-- An `operations` row as seen by the fetch query. -/
structure PendingRow where
  id : Nat
  createdAt : Nat
  status : String
  deriving Repr, DecidableEq

/-- `queue.get_pending_operations(limit)`:
`SELECT … WHERE o.status = 'pending' ORDER BY o.created_at ASC LIMIT ?`.
The table is scanned in rowid order and the sorter is stable, modelled as a
stable sort on the `created_at` key of the `pending` rows, truncated to
`limit`. -/
def get_pending_operations (table : List PendingRow) (limit : Nat) :
    List PendingRow :=
  (sortByKey (fun r => r.createdAt) (table.filter (fun r => r.status = "pending"))).take limit

/-! ## Destination picker (`copier.get_destination_drives`) -/

/-- A `drives` row. -/
structure DriveRow where
  id : Nat
  mountPath : String
  deriving Repr, DecidableEq

/-- A `user_rules` row (the fetch orders by `priority DESC`; only the
`rule_type`/`drive_id` columns are consulted). -/
structure RuleRow where
  ruleType : String
  driveId : Nat
  deriving Repr, DecidableEq

/-- A candidate destination as returned by `get_destination_drives` (the
drive row augmented with the live `free_space`, `total_space` and `score`
fields the function adds). -/
structure Candidate where
  id : Nat
  mountPath : String
  freeSpace : Nat
  totalSpace : Nat
  score : Nat
  deriving Repr, DecidableEq

/-- Python `f"prefer_{media_type}"` — `None` renders as the string `"None"`. -/
def preferTypeString (mediaType : Option String) : String :=
  "prefer_" ++ (match mediaType with | some s => s | none => "None")

/-- A rule marks this drive preferred: `prefer_{media_type}` or `prefer_all`
(the source builds `preferred` with an `elif` chain; membership is the
same as this disjunction). -/
def isPreferredRule (mediaType : Option String) (r : RuleRow) : Bool :=
  r.ruleType = preferTypeString mediaType || r.ruleType = "prefer_all"

/-- The free-space floor `file_size + max(10 * 1024**3, file_size * 0.1)`;
the Python float literal `0.1` is modelled as the exact rational `1/10`. -/
def minRequired (fileSize : Nat) : ℚ :=
  fileSize + max ((10 * 1024 ^ 3 : ℚ)) ((fileSize : ℚ) / 10)

/-- `copier.get_destination_drives`, given the source file's drive and size,
the optional media type, the `drives` and `user_rules` tables, and a disk
snapshot `disk : mount_path ↦ (free, total)` (`none` models a
`shutil.disk_usage` failure, silently skipped).  Filters out the source
drive, denylisted drives and drives below the free-space floor; scores the
survivors (preferred drives get the `10 * 1024**5` boost) and sorts by
descending score (Timsort with `reverse=True`, i.e. stable descending). -/
def get_destination_drives (sourceDriveId : Nat) (fileSize : Nat)
    (mediaType : Option String) (drives : List DriveRow)
    (rules : List RuleRow) (disk : String → Option (Nat × Nat)) :
    List Candidate :=
  let denylist := (rules.filter (fun r => r.ruleType = "denylist")).map (·.driveId)
  let preferred := (rules.filter (isPreferredRule mediaType)).map (·.driveId)
  let candidates := drives.filterMap (fun d =>
    if d.id = sourceDriveId then none
    else if denylist.contains d.id then none
    else
      match disk d.mountPath with
      | none => none
      | some (free, total) =>
        if (free : ℚ) < minRequired fileSize then none
        else
          some { id := d.id, mountPath := d.mountPath, freeSpace := free,
                 totalSpace := total,
                 score := free + (if preferred.contains d.id then 10 * 1024 ^ 5 else 0) })
  sortByKey (fun c => -(c.score : Int)) candidates

/-! ## Verified copier (`copier.safe_copy`)

The filesystem is a map from paths to entries; directories are implicit
(`dest.parent.mkdir` has no effect on any file).  The chunk-streaming loop is
summarised by a `streamed` parameter: `some ws` means the loop completed and
the temp file holds bytes `ws` (an error-free run has `ws` equal to the
source's bytes; concurrent modification can make it differ, which is what the
size/hash verification exists to catch), `none` means an `OSError` was raised
mid-stream after the temp file was created.  SHA-256 is abstracted as an
arbitrary `hashFn`. -/

/-- A filesystem entry. -/
inductive FsEntry where
  | file (bytes : List Nat)
  | dir
  deriving Repr, DecidableEq

/-- A filesystem snapshot. -/
def FS := String → Option FsEntry

/-- Point update of a filesystem. -/
def updateFS (fs : FS) (p : String) (e : Option FsEntry) : FS :=
  fun q => if q = p then e else fs q

/-- `copier.safe_copy(source_path, dest_path, verify_hash, overwrite)`:
validate the source, refuse an existing destination unless `overwrite`,
stream into `dest_path + ".tmp"`, check size, optionally check hashes, then
unlink the destination if present and rename the temp file onto it.  The
`except` branch removes the temp file on any failure inside the streaming /
verification block.  Returns the raised error (or `ok true`) and the
resulting filesystem. -/
def safe_copy (sourcePath destPath : String) (verifyHash overwrite : Bool)
    (hashFn : List Nat → List Nat) (streamed : Option (List Nat))
    (fs : FS) : Except String Bool × FS :=
  let tempDest := destPath ++ ".tmp"
  match fs sourcePath with
  | none => (.error "FileNotFoundError", fs)
  | some .dir => (.error "ValueError: source is not a file", fs)
  | some (.file sourceBytes) =>
    if (fs destPath).isSome && !overwrite then
      (.error "FileExistsError", fs)
    else
      match streamed with
      | none =>
        -- OSError mid-stream; the cleanup handler unlinks the temp file
        (.error "OSError", updateFS fs tempDest none)
      | some ws =>
        let fs1 := updateFS fs tempDest (some (.file ws))
        if ws.length ≠ sourceBytes.length then
          (.error "ValueError: size mismatch", updateFS fs1 tempDest none)
        else if verifyHash && hashFn sourceBytes ≠ hashFn ws then
          (.error "ValueError: hash mismatch", updateFS fs1 tempDest none)
        else
          let fs2 := if (fs1 destPath).isSome then updateFS fs1 destPath none else fs1
          (.ok true, updateFS (updateFS fs2 tempDest none) destPath (some (.file ws)))

/-- Whether a `safe_copy` result is a raised exception. -/
def exceptFailed (r : Except String Bool) : Bool :=
  match r with
  | .error _ => true
  | .ok _ => false

/-- A filesystem with a stale temp file at `/a/d.mkv.tmp`, no source file,
and no destination. -/
def copierCexFS : FS :=
  fun p => if p = "/a/d.mkv.tmp" then some (.file [7]) else none

/-! ## Quarantine and restore (`routers/cleanup.py`)

Paths are manipulated as `List Char` so that the string surgery of the
restore handler (`split(".quarantine")`, `rstrip(os.sep)`, `split(os.sep)`)
can be reasoned about.  `os.sep` is `/`. -/

/-- `os.path.join(a, b)` (posix, two arguments): an absolute `b` wins;
otherwise concatenate with exactly one separator. -/
def pjoin2 (a b : List Char) : List Char :=
  if b.head? = some '/' then b
  else if a = [] then b
  else if a.getLast? = some '/' then a ++ b
  else a ++ '/' :: b

/-- `os.path.join(a, *parts)`. -/
def pjoin (a : List Char) (parts : List (List Char)) : List Char :=
  parts.foldl pjoin2 a

/-- `str.split(c)` for a single-character separator. -/
def splitChar (c : Char) : List Char → List (List Char)
  | [] => [[]]
  | x :: xs =>
    if x = c then [] :: splitChar c xs
    else List.modifyHead (x :: ·) (splitChar c xs)

/-- Fuel-driven worker for `splitSub`; the fuel (initially the string's
length) only serves structural termination and never runs out. -/
def splitSubAux (sep : List Char) : Nat → List Char → List (List Char)
  | _, [] => [[]]
  | 0, s => [s]
  | fuel + 1, x :: xs =>
    if sep.isPrefixOf (x :: xs) then
      [] :: splitSubAux sep fuel (xs.drop (sep.length - 1))
    else
      List.modifyHead (x :: ·) (splitSubAux sep fuel xs)

/-- `str.split(sep)` for a nonempty separator string: cut at every
leftmost non-overlapping occurrence. -/
def splitSub (sep : List Char) (s : List Char) : List (List Char) :=
  splitSubAux sep s.length s

/-- `sep.join(parts)` (Python `str.join`). -/
def joinWith (sep : List Char) : List (List Char) → List Char
  | [] => []
  | [c] => c
  | c :: rest => c ++ (sep ++ joinWith sep rest)

/-- `sep` occurs nowhere in `s` (at no position is it a prefix of the
remaining suffix). -/
def NoOcc (sep s : List Char) : Prop := ∀ i, ¬ sep <+: s.drop i

/-- `str.rstrip(c)`. -/
def rstripChar (c : Char) (s : List Char) : List Char :=
  (s.reverse.dropWhile (· = c)).reverse

/-- Path components: `[x for x in p.split('/') if x]` (also dropping `.`,
matching the `os.path.abspath` normalisation `os.path.relpath` applies;
this model is faithful for absolute paths without `..` components). -/
def pathComps (p : List Char) : List (List Char) :=
  (splitChar '/' p).filter (fun c => c ≠ [] ∧ c ≠ ['.'])

/-- Length of the common prefix of two component lists. -/
def commonPrefixLen [DecidableEq α] : List α → List α → Nat
  | a :: as, b :: bs => if a = b then 1 + commonPrefixLen as bs else 0
  | _, _ => 0

/-- `os.path.relpath(path, start)` (posix), for absolute paths without
`..` components. -/
def relpath (path start : List Char) : List Char :=
  let pc := pathComps path
  let sc := pathComps start
  let i := commonPrefixLen pc sc
  let rel := List.replicate (sc.length - i) ['.', '.'] ++ pc.drop i
  if rel = [] then ['.'] else joinWith ['/'] rel

/-- The catalog columns the quarantine/restore handlers read and write. -/
structure CleanupRow where
  path : List Char
  hashStatus : String
  deriving Repr, DecidableEq

/-- The literal `".quarantine"` as a character list. -/
def qsep : List Char := ".quarantine".toList

/-- The per-file body of `cleanup.quarantine_files`: skip files missing on
disk; build the quarantine destination from the caller-supplied base or the
default `{drive}/.quarantine/{date}`, preserving the path of the file
relative to its drive's mount; move the file (the `shutil.move`/`makedirs`
of a reported success) and update the row to
`(quarantine_dest, hash_status = 'quarantined')`.  Returns
`(error message?, resulting row)`; on error the row is untouched. -/
def quarantine_one (quarantinePath : Option (List Char))
    (driveMount dateStr : List Char) (diskExists : Bool)
    (row : CleanupRow) : Option String × CleanupRow :=
  if !diskExists then
    (some "File does not exist on disk", row)
  else
    let quarantineBase :=
      match quarantinePath with
      | some q => q
      | none => pjoin2 (pjoin2 driveMount ".quarantine".toList) dateStr
    let relPath := relpath row.path driveMount
    let quarantineDest := pjoin2 quarantineBase relPath
    (none, { path := quarantineDest, hashStatus := "quarantined" })

/-- The per-file body of `cleanup.restore_from_quarantine`: the row must
have `hash_status = 'quarantined'` (the SQL `WHERE` clause); the stored path
must split on `".quarantine"` into exactly two parts, i.e. contain exactly
one occurrence; the original path is rebuilt from the part before the
occurrence (stripped of trailing separators) and the components after the
date folder.  Returns `(error message?, resulting row)`; on error the row is
untouched. -/
def restore_one (row : CleanupRow) : Option String × CleanupRow :=
  if row.hashStatus ≠ "quarantined" then
    (some "File not found or not quarantined", row)
  else
    let parts := splitSub qsep row.path
    if parts.length = 2 then
      let drive := rstripChar '/' (parts.getD 0 [])
      let relParts := (splitChar '/' (parts.getD 1 [])).drop 2
      let originalPath := pjoin drive relParts
      (none, { path := originalPath, hashStatus := "pending" })
    else
      (some "Cannot determine original path", row)

/-! # Theorems -/

/-! ## Helper lemmas -/

theorem updateFS_same (fs : FS) (p : String) (e : Option FsEntry) :
    updateFS fs p e p = e := by
  simp [updateFS]

theorem updateFS_other (fs : FS) (p : String) (e : Option FsEntry)
    (q : String) (h : q ≠ p) : updateFS fs p e q = fs q := by
  simp [updateFS, h]

theorem dest_ne_temp (d : String) : d ≠ d ++ ".tmp" := by
  intro h
  have hlen := congrArg String.length h
  rw [String.length_append] at hlen
  have h4 : ".tmp".length = 4 := rfl
  omega

theorem applyAction_eq_of_terminal (a : QueueAction) (row : OpRow)
    (ht : isTerminal row.status) (hp : a.isProgress = false) :
    applyAction a row = row := by
  cases a with
  | pauseOp now =>
    show (pause_operation now row).2 = row
    unfold pause_operation
    rw [if_neg]
    rcases ht with h | h | h <;> rw [h] <;> decide
  | resumeOp now =>
    show (resume_operation now row).2 = row
    unfold resume_operation
    rw [if_neg]
    rcases ht with h | h | h <;> rw [h] <;> decide
  | cancelOp now =>
    show (cancel_operation now row).2 = row
    unfold cancel_operation
    rw [if_neg]
    rcases ht with h | h | h <;> rw [h] <;> decide
  | progressUpd p now => simp [QueueAction.isProgress] at hp

/-! ## C10 — `set_concurrency` clamps into `[1, 10]` -/

/-- C10: for every integer `n`, `set_concurrency(n)` never rejects the
input: it stores `max(1, min(n, 10))`, which always lies in `[1, 10]`,
even for `n ≤ 0` or `n > 10`. -/
theorem c10_set_concurrency_clamps (n : Int) :
    set_concurrency n = max 1 (min n 10) ∧
    1 ≤ set_concurrency n ∧ set_concurrency n ≤ 10 := by
  refine ⟨rfl, ?_, ?_⟩ <;> unfold set_concurrency <;> omega

/-! ## C4 — scanner start guard -/

/-- C4 fails as stated: with the scanner state `paused`, `start_scan` is
accepted (returns `True`) and spawns a new scan task, contrary to the claim
that any start while `running` or `paused` is rejected. -/
theorem c4_counterexample :
    (start_scan ScanState.paused).1 = true ∧
    (start_scan ScanState.paused).2 = true := by
  decide

/-- C4 (amended): a call to `start_scan` is rejected — returning `False`
and spawning nothing — exactly when the scanner state is `running`; in every
other state (including `paused`) it is accepted and spawns a new scan
task. -/
theorem c4_start_scan_guard (st : ScanState) :
    ((start_scan st).1 = false ↔ st = ScanState.running) ∧
    (start_scan st).2 = (start_scan st).1 := by
  cases st <;> simp [start_scan]

/-! ## C2 — terminal operation statuses -/

/-- C2 fails as stated: a fire-and-forget progress update issued during a
copy, landing after the operation completed, unconditionally sets the status
back to `running`, so a terminal status does not persist under the claim's
full action set. -/
theorem c2_counterexample :
    isTerminal (OpRow.status ⟨"completed", some 100, none, some 1, some 2⟩) ∧
    (applyActions [QueueAction.progressUpd 50 9]
        ⟨"completed", some 100, none, some 1, some 2⟩).status = "running" := by
  constructor
  · decide
  · rfl

/-- C2 (amended): once an operation row is terminal (`completed`, `failed`
or `cancelled`), any sequence of the guarded queue actions
`pause_operation`, `resume_operation`, `cancel_operation` leaves the row —
in particular its status — unchanged; only the unguarded progress updates
(excluded here) can overwrite a terminal status. -/
theorem c2_terminal_stable (row : OpRow) (acts : List QueueAction)
    (ht : isTerminal row.status)
    (hc : ∀ a ∈ acts, a.isProgress = false) :
    applyActions acts row = row := by
  induction acts with
  | nil => rfl
  | cons a acts ih =>
    have ha : applyAction a row = row :=
      applyAction_eq_of_terminal a row ht (hc a (List.mem_cons_self a acts))
    show applyActions acts (applyAction a row) = row
    rw [ha]
    exact ih (fun b hb => hc b (List.mem_cons_of_mem a hb))

/-- Witness for C2 (amended) at a concrete terminal row and action list. -/
theorem c2_terminal_stable_witness :
    applyActions [QueueAction.pauseOp 3, QueueAction.cancelOp 4,
        QueueAction.resumeOp 5] ⟨"completed", some 5, none, some 0, some 1⟩ =
      ⟨"completed", some 5, none, some 0, some 1⟩ :=
  c2_terminal_stable ⟨"completed", some 5, none, some 0, some 1⟩
    [QueueAction.pauseOp 3, QueueAction.cancelOp 4, QueueAction.resumeOp 5]
    (by decide) (by decide)

/-! ## C7 — parser seed scenario S1 -/

/-- C7: parsing `"Breaking.Bad.S01E02.720p.mkv"` strips the extension,
matches the first TV pattern before any movie pattern, and yields
`type = tv_episode`, `title = "Breaking Bad"` (dots replaced by spaces,
whitespace collapsed, title-cased), `season = 1`, `episode = 2`. -/
theorem c7_parse_breaking_bad :
    parse_filename "Breaking.Bad.S01E02.720p.mkv" =
      { type := "tv_episode", title := some "Breaking Bad",
        season := some 1, episode := some 2 } := by
  rfl

/-! ## C1 — copier failure paths -/

/-- C1 fails as stated: when `safe_copy` fails its source validation (the
source file does not exist), a stale file already sitting at
`dest_path + ".tmp"` is not removed — the cleanup handler only covers the
streaming/verification block. -/
theorem c1_counterexample :
    exceptFailed (safe_copy "/s/x.mkv" "/a/d.mkv" false false id none copierCexFS).1 = true ∧
    (safe_copy "/s/x.mkv" "/a/d.mkv" false false id none copierCexFS).2
        ("/a/d.mkv" ++ ".tmp") = some (.file [7]) := by
  constructor <;> rfl

/-- C1 (amended): on every failing invocation of `safe_copy` the
pre-existing destination is byte-for-byte unchanged, and either the
filesystem is entirely unchanged (validation failures before streaming:
source missing or not a regular file, destination pre-existing without
overwrite) or the temp file `dest_path + ".tmp"` has been removed (failures
inside the streaming/verification block: I/O error, size mismatch, hash
mismatch).  In particular, if no temp file pre-existed, none exists after a
failure. -/
theorem c1_safe_copy_failure (src dst : String) (vh ow : Bool)
    (hashFn : List Nat → List Nat) (streamed : Option (List Nat)) (fs : FS)
    (hfail : exceptFailed (safe_copy src dst vh ow hashFn streamed fs).1 = true) :
    (safe_copy src dst vh ow hashFn streamed fs).2 dst = fs dst ∧
    ((safe_copy src dst vh ow hashFn streamed fs).2 = fs ∨
      (safe_copy src dst vh ow hashFn streamed fs).2 (dst ++ ".tmp") = none) ∧
    (fs (dst ++ ".tmp") = none →
      (safe_copy src dst vh ow hashFn streamed fs).2 (dst ++ ".tmp") = none) := by
  have hne : dst ≠ dst ++ ".tmp" := dest_ne_temp dst
  cases hsrc : fs src with
  | none =>
    simp only [safe_copy, hsrc]
    simp
  | some entry =>
    cases entry with
    | dir =>
      simp only [safe_copy, hsrc]
      simp
    | file bs =>
      by_cases hex : ((fs dst).isSome && !ow) = true
      · simp only [safe_copy, hsrc, hex, if_true]
        simp
      · cases streamed with
        | none =>
          simp only [safe_copy, hsrc, hex, Bool.false_eq_true, if_false]
          exact ⟨updateFS_other fs _ none dst hne, Or.inr (updateFS_same fs _ none),
            fun _ => updateFS_same fs _ none⟩
        | some ws =>
          by_cases hsz : ws.length ≠ bs.length
          · simp only [safe_copy, hsrc, hex, Bool.false_eq_true, if_false, if_pos hsz]
            refine ⟨?_, Or.inr (updateFS_same _ _ none), fun _ => updateFS_same _ _ none⟩
            rw [updateFS_other _ _ none dst hne, updateFS_other _ _ _ dst hne]
          · by_cases hh : (vh && decide (hashFn bs ≠ hashFn ws)) = true
            · simp only [safe_copy, hsrc, hex, Bool.false_eq_true, if_false, if_neg hsz,
                if_pos hh]
              refine ⟨?_, Or.inr (updateFS_same _ _ none), fun _ => updateFS_same _ _ none⟩
              rw [updateFS_other _ _ none dst hne, updateFS_other _ _ _ dst hne]
            · simp only [safe_copy, hsrc, hex, Bool.false_eq_true, if_false, if_neg hsz,
                if_neg hh, exceptFailed] at hfail

/-- Witness for C1 (amended): a hash-mismatch failure removes the temp file
and leaves the (absent) destination absent. -/
theorem c1_safe_copy_failure_witness :
    exceptFailed (safe_copy "/s/x.mkv" "/a/d.mkv" true false
        (fun bs => bs) (some [1]) (fun p => if p = "/s/x.mkv" then some (.file [2]) else none)).1 = true ∧
    (safe_copy "/s/x.mkv" "/a/d.mkv" true false (fun bs => bs) (some [1])
        (fun p => if p = "/s/x.mkv" then some (.file [2]) else none)).2 "/a/d.mkv" =
      (fun p => if p = "/s/x.mkv" then some (FsEntry.file [2]) else none) "/a/d.mkv" := by
  refine ⟨by rfl, ?_⟩
  exact (c1_safe_copy_failure "/s/x.mkv" "/a/d.mkv" true false (fun bs => bs) (some [1])
    (fun p => if p = "/s/x.mkv" then some (.file [2]) else none) (by rfl)).1

/-! ## Sorting lemmas -/

theorem mem_ordInsertKey [LinearOrder β] (key : α → β) (a x : α) (l : List α) :
    x ∈ ordInsertKey key a l ↔ x = a ∨ x ∈ l := by
  induction l with
  | nil => simp [ordInsertKey]
  | cons b l ih =>
    rw [ordInsertKey]
    split
    · simp [List.mem_cons]
    · simp only [List.mem_cons, ih]
      tauto

theorem mem_sortByKey [LinearOrder β] (key : α → β) (x : α) (l : List α) :
    x ∈ sortByKey key l ↔ x ∈ l := by
  induction l with
  | nil => simp [sortByKey]
  | cons a l ih =>
    rw [sortByKey, mem_ordInsertKey]
    simp [ih]

theorem pairwise_true (l : List α) : l.Pairwise (fun _ _ => True) := by
  induction l <;> simp [*]

theorem pairwise_ordInsertKey [LinearOrder β] (key : α → β) (Q : α → α → Prop)
    (a : α) (l : List α)
    (hl : l.Pairwise (fun x y => key x < key y ∨ (key x = key y ∧ Q x y)))
    (ha : ∀ b ∈ l, Q a b) :
    (ordInsertKey key a l).Pairwise
      (fun x y => key x < key y ∨ (key x = key y ∧ Q x y)) := by
  induction l with
  | nil => simp [ordInsertKey]
  | cons b l ih =>
    rcases List.pairwise_cons.mp hl with ⟨hb, hl'⟩
    rw [ordInsertKey]
    split
    case isTrue hab =>
      refine List.Pairwise.cons ?_ hl
      intro c hc
      rcases List.mem_cons.mp hc with rfl | hcl
      · rcases lt_or_eq_of_le hab with hlt | heq
        · exact Or.inl hlt
        · exact Or.inr ⟨heq, ha c (List.mem_cons_self c l)⟩
      · have hbc : key b ≤ key c := by
          rcases hb c hcl with hlt | ⟨heq, _⟩
          · exact le_of_lt hlt
          · exact le_of_eq heq
        rcases lt_or_eq_of_le (le_trans hab hbc) with hlt | heq
        · exact Or.inl hlt
        · exact Or.inr ⟨heq, ha c (List.mem_cons_of_mem b hcl)⟩
    case isFalse hab =>
      have hba : key b < key a := lt_of_not_le hab
      refine List.Pairwise.cons ?_ (ih hl' (fun c hc => ha c (List.mem_cons_of_mem b hc)))
      intro c hc
      rcases (mem_ordInsertKey key a c _).mp hc with rfl | hcl
      · exact Or.inl hba
      · exact hb c hcl

theorem pairwise_sortByKey [LinearOrder β] (key : α → β) (Q : α → α → Prop)
    (l : List α) (hl : l.Pairwise Q) :
    (sortByKey key l).Pairwise
      (fun x y => key x < key y ∨ (key x = key y ∧ Q x y)) := by
  induction l with
  | nil => simp [sortByKey]
  | cons a l ih =>
    rcases List.pairwise_cons.mp hl with ⟨ha, hl'⟩
    rw [sortByKey]
    refine pairwise_ordInsertKey key Q a _ (ih hl') ?_
    intro b hb
    exact ha b ((mem_sortByKey key b l).mp hb)

/-! ## C6 — queue fetch ordering -/

/-- C6: the operations fetched by `get_pending_operations` are ordered by
`created_at` ascending, and any two fetched operations with equal
`created_at` are ordered by ascending id (the table is scanned in rowid
order — ids strictly increasing — and the sort on `created_at` is
stable). -/
theorem c6_pending_operations_order (table : List PendingRow) (limit : Nat)
    (hids : table.Pairwise (fun a b => a.id < b.id)) :
    (get_pending_operations table limit).Pairwise
      (fun a b => a.createdAt < b.createdAt ∨
        (a.createdAt = b.createdAt ∧ a.id < b.id)) := by
  unfold get_pending_operations
  refine List.Pairwise.sublist (List.take_sublist _ _) ?_
  exact pairwise_sortByKey _ _ _ (hids.filter _)

/-- Witness for C6 at a concrete table with a `created_at` tie. -/
theorem c6_pending_operations_order_witness :
    (get_pending_operations
      [⟨1, 5, "pending"⟩, ⟨2, 3, "pending"⟩, ⟨3, 3, "pending"⟩,
       ⟨4, 4, "completed"⟩] 10).Pairwise
      (fun a b => a.createdAt < b.createdAt ∨
        (a.createdAt = b.createdAt ∧ a.id < b.id)) :=
  c6_pending_operations_order
    [⟨1, 5, "pending"⟩, ⟨2, 3, "pending"⟩, ⟨3, 3, "pending"⟩,
     ⟨4, 4, "completed"⟩] 10 (by decide)

/-! ## Matcher lemmas -/

theorem truthy_some_iff (s : String) : truthy (some s) = true ↔ s ≠ "" := by
  constructor
  · intro h hseq
    subst hseq
    exact absurd h (by decide)
  · intro hne
    have hE : s.isEmpty = false := by
      cases hE : s.isEmpty
      · rfl
      · exact absurd ((String.isEmpty_iff s).mp hE) hne
    show (!s.isEmpty) = true
    rw [hE]
    rfl

theorem joinLookup_some (cat : MatchCatalog) (col : FileRow → Option String)
    (v : String) (i : Nat) (h : joinLookup cat col v = some i) :
    LinkedWith cat col v i := by
  unfold joinLookup at h
  rcases Option.map_eq_some'.mp h with ⟨l, hfind, hid⟩
  have hp := List.find?_some hfind
  have hmem := List.mem_of_find?_eq_some hfind
  rw [Bool.and_eq_true] at hp
  rcases hp with ⟨hitems, hfiles⟩
  rcases List.any_eq_true.mp hitems with ⟨mi, hmi, hmieq⟩
  rcases List.any_eq_true.mp hfiles with ⟨f, hf, hfeq⟩
  rw [Bool.and_eq_true] at hfeq
  rcases hfeq with ⟨hfid, hcol⟩
  subst hid
  exact ⟨⟨mi, hmi, of_decide_eq_true hmieq⟩, l, hmem, rfl,
    f, hf, of_decide_eq_true hfid, of_decide_eq_true hcol⟩

theorem joinLookup_eq_none (cat : MatchCatalog) (col : FileRow → Option String)
    (v : String) (h : joinLookup cat col v = none) :
    ∀ i, ¬ LinkedWith cat col v i := by
  intro i hi
  unfold joinLookup at h
  rw [Option.map_eq_none'] at h
  rcases hi with ⟨⟨mi, hmi, hmieq⟩, l, hl, hlit, f, hf, hfid, hcol⟩
  refine List.find?_eq_none.mp h l hl ?_
  rw [Bool.and_eq_true]
  refine ⟨List.any_eq_true.mpr ⟨mi, hmi, decide_eq_true ?_⟩,
    List.any_eq_true.mpr ⟨f, hf, ?_⟩⟩
  · rw [hmieq, hlit]
  · rw [Bool.and_eq_true]
    exact ⟨decide_eq_true hfid, decide_eq_true hcol⟩

theorem joinLookup_of_exists (cat : MatchCatalog) (col : FileRow → Option String)
    (v : String) (hex : ∃ i, LinkedWith cat col v i) :
    ∃ i, joinLookup cat col v = some i := by
  rcases hex with ⟨i, hi⟩
  cases hjl : joinLookup cat col v with
  | some j => exact ⟨j, rfl⟩
  | none => exact absurd hi (joinLookup_eq_none cat col v hjl i)

theorem fullPrimary_eq_none (fh : Option String) (cat : MatchCatalog)
    (hnf : NoFullMatch fh cat) : fullPrimary fh cat = none := by
  cases fh with
  | none => rfl
  | some h =>
    simp only [fullPrimary]
    by_cases he : h = ""
    · rw [if_pos he]
    · rw [if_neg he]
      cases hj : joinLookup cat (·.fullHash) h with
      | none => rfl
      | some i => exact absurd (joinLookup_some _ _ _ _ hj) (hnf h rfl he i)

/-! ## C3 — matcher lookup priority -/

/-- C3 fails as stated: with a non-null `full_hash` that matches no file,
`find_matching_item` does not return null — it falls through to the
quick-signature lookup and returns an item linked only by `quick_sig`
(marking it `needs_verification`), although an item linked to a file with
identical `full_hash` does not exist. -/
theorem c3_counterexample :
    (find_matching_item (some "q") (some "h")
        ⟨[⟨1, some "q", some "x"⟩], [⟨7, "auto"⟩], [⟨7, 1⟩]⟩).1 = some 7 ∧
    ∀ i, ¬ LinkedWith ⟨[⟨1, some "q", some "x"⟩], [⟨7, "auto"⟩], [⟨7, 1⟩]⟩
        (·.fullHash) "h" i := by
  refine ⟨rfl, ?_⟩
  intro i hi
  rcases hi with ⟨-, l, hl, -, f, hf, -, hcol⟩
  simp only [List.mem_singleton] at hf
  subst hf
  exact absurd hcol (by decide)

/-- C3 (amended): if both signatures are falsy (null or empty) the result is
null and the catalog untouched; if `full_hash` is truthy and some item is
linked to a file with that full hash, such an item is returned with the
catalog untouched; the quick-signature fallback — which marks the returned
item `needs_verification` — runs not only when `full_hash` is falsy but
whenever the full-hash lookup finds nothing; the result is null only when
both lookups find nothing. -/
theorem c3_find_matching_item (qs fh : Option String) (cat : MatchCatalog) :
    (truthy qs = false ∧ truthy fh = false →
      find_matching_item qs fh cat = (none, cat)) ∧
    (∀ h, fh = some h → h ≠ "" →
      (∃ i, LinkedWith cat (·.fullHash) h i) →
      ∃ i, find_matching_item qs fh cat = (some i, cat) ∧
        LinkedWith cat (·.fullHash) h i) ∧
    (∀ q, qs = some q → q ≠ "" → NoFullMatch fh cat →
      ((∃ i, LinkedWith cat (·.quickSig) q i) →
        ∃ i, find_matching_item qs fh cat = (some i, setNeedsVerification cat i) ∧
          LinkedWith cat (·.quickSig) q i) ∧
      ((∀ i, ¬ LinkedWith cat (·.quickSig) q i) →
        find_matching_item qs fh cat = (none, cat))) ∧
    (truthy qs = false → NoFullMatch fh cat →
      find_matching_item qs fh cat = (none, cat)) := by
  refine ⟨?_, ?_, ?_, ?_⟩
  · rintro ⟨hq, hf⟩
    simp [find_matching_item, hq, hf]
  · rintro h rfl hne hex
    have htr : truthy (some h) = true := (truthy_some_iff h).mpr hne
    obtain ⟨i, hjl⟩ := joinLookup_of_exists cat (·.fullHash) h hex
    refine ⟨i, ?_, joinLookup_some _ _ _ _ hjl⟩
    have hfp : fullPrimary (some h) cat = some i := by
      simp [fullPrimary, hne, hjl]
    simp [find_matching_item, htr, hfp]
  · rintro q rfl hne hnf
    have hqt : truthy (some q) = true := (truthy_some_iff q).mpr hne
    have hfp := fullPrimary_eq_none fh cat hnf
    constructor
    · rintro hex
      obtain ⟨i, hjl⟩ := joinLookup_of_exists cat (·.quickSig) q hex
      refine ⟨i, ?_, joinLookup_some _ _ _ _ hjl⟩
      have hqf : quickFallback (some q) cat = some i := by
        simp [quickFallback, hne, hjl]
      simp [find_matching_item, hqt, hfp, hqf]
    · intro hnone
      have hjn : joinLookup cat (·.quickSig) q = none := by
        cases hj : joinLookup cat (·.quickSig) q with
        | none => rfl
        | some i => exact absurd (joinLookup_some _ _ _ _ hj) (hnone i)
      have hqf : quickFallback (some q) cat = none := by
        simp [quickFallback, hne, hjn]
      simp [find_matching_item, hqt, hfp, hqf]
  · intro hq hnf
    have hfp := fullPrimary_eq_none fh cat hnf
    have hqf : quickFallback qs cat = none := by
      cases qs with
      | none => rfl
      | some q =>
        have : q = "" := by
          by_contra hne
          rw [(truthy_some_iff q).mpr hne] at hq
          cases hq
        simp [quickFallback, this]
    by_cases hf : truthy fh = true
    · simp [find_matching_item, hq, hf, hfp, hqf]
    · rw [Bool.not_eq_true] at hf
      simp [find_matching_item, hq, hf]

/-- Witness for C3 (amended): a full-hash match is returned with the catalog
untouched. -/
theorem c3_find_matching_item_witness :
    ∃ i, find_matching_item (some "q") (some "x")
        ⟨[⟨1, some "q", some "x"⟩], [⟨7, "auto"⟩], [⟨7, 1⟩]⟩ =
        (some i, ⟨[⟨1, some "q", some "x"⟩], [⟨7, "auto"⟩], [⟨7, 1⟩]⟩) ∧
      LinkedWith ⟨[⟨1, some "q", some "x"⟩], [⟨7, "auto"⟩], [⟨7, 1⟩]⟩
        (·.fullHash) "x" i :=
  (c3_find_matching_item (some "q") (some "x")
      ⟨[⟨1, some "q", some "x"⟩], [⟨7, "auto"⟩], [⟨7, 1⟩]⟩).2.1 "x" rfl
    (by decide)
    ⟨7, ⟨⟨7, "auto"⟩, by decide, rfl⟩, ⟨7, 1⟩, by decide, rfl,
      ⟨1, some "q", some "x"⟩, by decide, rfl, rfl⟩

/-! ## C5 — destination picker -/

/-- C5: the destination picker never returns the source file's drive nor any
drive named by a denylist rule; every returned drive has
`free_space ≥ file_size + max(10 GiB, 10%·file_size)`; and the list is
sorted by descending score, where the score is the drive's free space plus
`10·1024^5` exactly when a `prefer_{media_type}` or `prefer_all` rule names
the drive. -/
theorem c5_destination_picker (src fileSize : Nat) (mt : Option String)
    (drives : List DriveRow) (rules : List RuleRow)
    (disk : String → Option (Nat × Nat)) :
    (∀ c ∈ get_destination_drives src fileSize mt drives rules disk,
      c.id ≠ src ∧
      (∀ r ∈ rules, r.ruleType = "denylist" → r.driveId ≠ c.id) ∧
      (fileSize : ℚ) + max ((10 * 1024 ^ 3 : ℚ)) ((fileSize : ℚ) / 10) ≤ (c.freeSpace : ℚ) ∧
      c.score = c.freeSpace +
        (if ∃ r ∈ rules, r.driveId = c.id ∧
            (r.ruleType = preferTypeString mt ∨ r.ruleType = "prefer_all")
          then 10 * 1024 ^ 5 else 0)) ∧
    (get_destination_drives src fileSize mt drives rules disk).Pairwise
      (fun a b => b.score ≤ a.score) := by
  constructor
  · intro c hc
    unfold get_destination_drives at hc
    rw [mem_sortByKey, List.mem_filterMap] at hc
    obtain ⟨d, hd, hfd⟩ := hc
    by_cases h1 : d.id = src
    · rw [if_pos h1] at hfd; cases hfd
    rw [if_neg h1] at hfd
    by_cases h2 : ((rules.filter (fun r => r.ruleType = "denylist")).map
        (·.driveId)).contains d.id = true
    · rw [if_pos h2] at hfd; cases hfd
    rw [if_neg h2] at hfd
    cases hdisk : disk d.mountPath with
    | none => rw [hdisk] at hfd; cases hfd
    | some ft =>
      obtain ⟨free, total⟩ := ft
      rw [hdisk] at hfd
      simp only [] at hfd
      by_cases h3 : (free : ℚ) < minRequired fileSize
      · rw [if_pos h3] at hfd; cases hfd
      rw [if_neg h3] at hfd
      have hc := Option.some.inj hfd
      subst hc
      refine ⟨h1, ?_, ?_, ?_⟩
      · intro r hr hrt hre
        have hmem : d.id ∈ (rules.filter (fun r => r.ruleType = "denylist")).map
            (·.driveId) :=
          List.mem_map.mpr ⟨r, List.mem_filter.mpr ⟨hr, decide_eq_true hrt⟩, hre⟩
        exact h2 (List.elem_eq_true_of_mem hmem)
      · have hle := not_lt.mp h3
        rw [minRequired] at hle
        exact hle
      · show free + (if ((rules.filter (isPreferredRule mt)).map
            (·.driveId)).contains d.id = true then 10 * 1024 ^ 5 else 0) = _
        by_cases hp : ((rules.filter (isPreferredRule mt)).map
            (·.driveId)).contains d.id = true
        · obtain ⟨r, hrf, hre⟩ := List.mem_map.mp (List.mem_of_elem_eq_true hp)
          obtain ⟨hr, hprf⟩ := List.mem_filter.mp hrf
          have hdisj : r.ruleType = preferTypeString mt ∨ r.ruleType = "prefer_all" := by
            unfold isPreferredRule at hprf
            rw [Bool.or_eq_true] at hprf
            rcases hprf with h | h
            · exact Or.inl (of_decide_eq_true h)
            · exact Or.inr (of_decide_eq_true h)
          rw [if_pos hp, if_pos ⟨r, hr, hre, hdisj⟩]
        · have hnP : ¬∃ r ∈ rules, r.driveId = d.id ∧
              (r.ruleType = preferTypeString mt ∨ r.ruleType = "prefer_all") := by
            rintro ⟨r, hr, hre, hty⟩
            have hpr : isPreferredRule mt r = true := by
              unfold isPreferredRule
              rw [Bool.or_eq_true]
              rcases hty with h | h
              · exact Or.inl (decide_eq_true h)
              · exact Or.inr (decide_eq_true h)
            exact hp (List.elem_eq_true_of_mem
              (List.mem_map.mpr ⟨r, List.mem_filter.mpr ⟨hr, hpr⟩, hre⟩))
          rw [if_neg hp, if_neg hnP]
  · unfold get_destination_drives
    refine (pairwise_sortByKey (fun c : Candidate => -(c.score : Int))
        (fun _ _ => True) _ (pairwise_true _)).imp ?_
    intro a b hab
    rcases hab with hlt | ⟨heq, -⟩
    · have hba : (b.score : Int) < (a.score : Int) := by omega
      exact_mod_cast le_of_lt hba
    · have hba : (b.score : Int) = (a.score : Int) := by omega
      exact le_of_eq (by exact_mod_cast hba)

/-- Concrete evaluation of the destination picker on a two-drive snapshot:
the source drive is dropped, drive 2 survives with the `20 GiB` free space
reported by the disk snapshot. -/
theorem c5_picker_concrete :
    get_destination_drives 1 0 none [⟨1, "/mnt/a"⟩, ⟨2, "/mnt/b"⟩] []
        (fun m => if m = "/mnt/b" then some (20 * 1024 ^ 3, 30 * 1024 ^ 3)
          else none) =
      [⟨2, "/mnt/b", 20 * 1024 ^ 3, 30 * 1024 ^ 3, 20 * 1024 ^ 3⟩] := by
  simp only [get_destination_drives, minRequired, List.filterMap, List.filter, List.map]
  norm_num
  simp [sortByKey, ordInsertKey]

/-- Witness for C5 at a concrete snapshot: drive 2 survives the filters, its
free space clears the floor, and the result is sorted. -/
theorem c5_destination_picker_witness :
    ((0 : Nat) : ℚ) + max ((10 * 1024 ^ 3 : ℚ)) (((0 : Nat) : ℚ) / 10) ≤
      ((20 * 1024 ^ 3 : Nat) : ℚ) ∧
    (get_destination_drives 1 0 none [⟨1, "/mnt/a"⟩, ⟨2, "/mnt/b"⟩] []
        (fun m => if m = "/mnt/b" then some (20 * 1024 ^ 3, 30 * 1024 ^ 3)
          else none)).Pairwise (fun a b => b.score ≤ a.score) :=
  ⟨((c5_destination_picker 1 0 none [⟨1, "/mnt/a"⟩, ⟨2, "/mnt/b"⟩] []
      (fun m => if m = "/mnt/b" then some (20 * 1024 ^ 3, 30 * 1024 ^ 3)
        else none)).1
      ⟨2, "/mnt/b", 20 * 1024 ^ 3, 30 * 1024 ^ 3, 20 * 1024 ^ 3⟩
      (by rw [c5_picker_concrete]; exact List.mem_singleton_self _)).2.2.1,
    (c5_destination_picker 1 0 none [⟨1, "/mnt/a"⟩, ⟨2, "/mnt/b"⟩] []
      (fun m => if m = "/mnt/b" then some (20 * 1024 ^ 3, 30 * 1024 ^ 3)
        else none)).2⟩

/-! ## String splitting lemmas -/

theorem splitSubAux_fuel (sep : List Char) (f1 f2 : Nat) (s : List Char)
    (h1 : s.length ≤ f1) (h2 : s.length ≤ f2) :
    splitSubAux sep f1 s = splitSubAux sep f2 s := by
  induction f1 generalizing f2 s with
  | zero =>
    cases s with
    | nil => cases f2 <;> rfl
    | cons x xs => simp at h1
  | succ f1 ih =>
    cases s with
    | nil => cases f2 <;> rfl
    | cons x xs =>
      cases f2 with
      | zero => simp at h2
      | succ f2 =>
        have hxs1 : xs.length ≤ f1 := by
          simp only [List.length_cons] at h1; omega
        have hxs2 : xs.length ≤ f2 := by
          simp only [List.length_cons] at h2; omega
        have hd1 : (xs.drop (sep.length - 1)).length ≤ f1 := by
          rw [List.length_drop]; omega
        have hd2 : (xs.drop (sep.length - 1)).length ≤ f2 := by
          rw [List.length_drop]; omega
        simp only [splitSubAux]
        split
        · rw [ih f2 _ hd1 hd2]
        · rw [ih f2 xs hxs1 hxs2]

theorem splitSub_cons (sep : List Char) (x : Char) (xs : List Char) :
    splitSub sep (x :: xs) =
      if sep.isPrefixOf (x :: xs) then
        [] :: splitSub sep (xs.drop (sep.length - 1))
      else
        List.modifyHead (x :: ·) (splitSub sep xs) := by
  show splitSubAux sep (xs.length + 1) (x :: xs) = _
  simp only [splitSubAux]
  split
  · rw [splitSubAux_fuel sep xs.length (xs.drop (sep.length - 1)).length _
      (by rw [List.length_drop]; omega) le_rfl]
    rfl
  · rfl

/-! ## C9 — custom quarantine path breaks restore -/

/-- C9: quarantining a file with a caller-supplied `quarantine_path` always
succeeds and stores `join(quarantine_path, relpath)` with
`hash_status = quarantined`; if that stored path does not split on
`".quarantine"` into exactly two parts (i.e. does not contain the segment
exactly once), every subsequent restore reports
`"Cannot determine original path"` and leaves the row — path and
`hash_status` — unchanged. -/
theorem c9_custom_quarantine_restore_fails (base mount date : List Char)
    (row : CleanupRow)
    (hsplit : (splitSub qsep (pjoin2 base (relpath row.path mount))).length ≠ 2) :
    quarantine_one (some base) mount date true row =
      (none, ⟨pjoin2 base (relpath row.path mount), "quarantined"⟩) ∧
    restore_one ⟨pjoin2 base (relpath row.path mount), "quarantined"⟩ =
      (some "Cannot determine original path",
        ⟨pjoin2 base (relpath row.path mount), "quarantined"⟩) := by
  refine ⟨rfl, ?_⟩
  unfold restore_one
  rw [if_neg (fun h => h rfl), if_neg hsplit]

/-- Witness for C9: a quarantine base `/alt/trash` yields a stored path with
no `.quarantine` segment; restore fails and the row is unchanged. -/
theorem c9_custom_quarantine_restore_fails_witness :
    restore_one ⟨pjoin2 "/alt/trash".toList
        (relpath "/mnt/a/media/x.mkv".toList "/mnt/a".toList), "quarantined"⟩ =
      (some "Cannot determine original path",
        ⟨pjoin2 "/alt/trash".toList
          (relpath "/mnt/a/media/x.mkv".toList "/mnt/a".toList), "quarantined"⟩) :=
  (c9_custom_quarantine_restore_fails "/alt/trash".toList "/mnt/a".toList
    "2026-10-12".toList ⟨"/mnt/a/media/x.mkv".toList, "complete"⟩
    (by decide)).2

/-! ## Path manipulation lemmas (towards C8) -/

theorem modifyHead_append (f : List Char → List Char) (l t : List (List Char))
    (hl : l ≠ []) : List.modifyHead f (l ++ t) = List.modifyHead f l ++ t := by
  cases l with
  | nil => exact absurd rfl hl
  | cons x xs => rfl

theorem splitChar_ne_nil (c : Char) (s : List Char) : splitChar c s ≠ [] := by
  induction s with
  | nil => simp [splitChar]
  | cons x xs ih =>
    rw [splitChar]
    split
    · simp
    · cases h : splitChar c xs with
      | nil => exact absurd h ih
      | cons y ys => simp [List.modifyHead]

theorem splitChar_append_cons (c : Char) (a b : List Char) :
    splitChar c (a ++ c :: b) = splitChar c a ++ splitChar c b := by
  induction a with
  | nil => simp [splitChar]
  | cons x a ih =>
    simp only [List.cons_append, splitChar, List.append_eq]
    split
    · rw [ih]
      rfl
    · rw [ih, modifyHead_append _ _ _ (splitChar_ne_nil c a)]

theorem splitChar_no_sep (c : Char) (s : List Char) (h : ∀ ch ∈ s, ch ≠ c) :
    splitChar c s = [s] := by
  induction s with
  | nil => rfl
  | cons x xs ih =>
    rw [splitChar, if_neg (h x (List.mem_cons_self x xs)),
      ih (fun ch hch => h ch (List.mem_cons_of_mem x hch))]
    rfl

theorem splitChar_joinWith (comps : List (List Char)) (hne : comps ≠ [])
    (hcc : ∀ cc ∈ comps, ∀ ch ∈ cc, ch ≠ '/') :
    splitChar '/' (joinWith ['/'] comps) = comps := by
  induction comps with
  | nil => exact absurd rfl hne
  | cons c rest ih =>
    cases rest with
    | nil =>
      rw [joinWith]
      exact splitChar_no_sep '/' c (hcc c (List.mem_cons_self c []))
    | cons c2 rest2 =>
      have hj : joinWith ['/'] (c :: c2 :: rest2) =
          c ++ '/' :: joinWith ['/'] (c2 :: rest2) := rfl

      rw [hj, splitChar_append_cons,
        splitChar_no_sep '/' c (hcc c (List.mem_cons_self c _)),
        ih (by simp) (fun cc hcc2 => hcc cc (List.mem_cons_of_mem c hcc2))]
      rfl

theorem pathComps_append_cons (a b : List Char) :
    pathComps (a ++ '/' :: b) = pathComps a ++ pathComps b := by
  unfold pathComps
  rw [splitChar_append_cons, List.filter_append]

theorem pathComps_joinWith (comps : List (List Char)) (hne : comps ≠ [])
    (hcc : ∀ cc ∈ comps, cc ≠ [] ∧ cc ≠ ['.'] ∧ ∀ ch ∈ cc, ch ≠ '/') :
    pathComps (joinWith ['/'] comps) = comps := by
  unfold pathComps
  rw [splitChar_joinWith comps hne (fun cc h => (hcc cc h).2.2)]
  refine List.filter_eq_self.mpr ?_
  intro cc hcc2
  exact decide_eq_true ⟨(hcc cc hcc2).1, (hcc cc hcc2).2.1⟩

theorem commonPrefixLen_append (a x : List (List Char)) :
    commonPrefixLen (a ++ x) a = a.length := by
  induction a with
  | nil => cases x <;> rfl
  | cons c a ih =>
    simp only [List.cons_append, commonPrefixLen, eq_self_iff_true, if_true, ih,
      List.length_cons, List.append_eq]
    omega

theorem relpath_under (mount : List Char) (comps : List (List Char))
    (hne : comps ≠ [])
    (hcc : ∀ cc ∈ comps, cc ≠ [] ∧ cc ≠ ['.'] ∧ ∀ ch ∈ cc, ch ≠ '/') :
    relpath (mount ++ '/' :: joinWith ['/'] comps) mount = joinWith ['/'] comps := by
  simp only [relpath, pathComps_append_cons, pathComps_joinWith comps hne hcc,
    commonPrefixLen_append]
  simp only [Nat.sub_self, List.replicate_zero, List.nil_append, List.drop_left]
  rw [if_neg hne]

theorem rstripChar_append_sep (s : List Char) :
    rstripChar '/' (s ++ ['/']) = rstripChar '/' s := by
  unfold rstripChar
  rw [List.reverse_append]
  simp [List.dropWhile]

theorem rstripChar_eq_self (s : List Char) (h : s.getLast? ≠ some '/') :
    rstripChar '/' s = s := by
  unfold rstripChar
  cases hs : s.reverse with
  | nil =>
    have hsnil : s = [] := by simpa using congrArg List.reverse hs
    subst hsnil
    rfl
  | cons a t =>
    have ha : ¬ (a = '/') := by
      intro hcon
      apply h
      rw [← List.head?_reverse, hs, hcon]
      rfl
    rw [List.dropWhile_cons, if_neg (by simpa using ha), ← hs,
      List.reverse_reverse]

theorem pjoin2_eq (a b : List Char) (ha : a ≠ [])
    (hal : a.getLast? ≠ some '/') (hb : b.head? ≠ some '/') :
    pjoin2 a b = a ++ '/' :: b := by
  unfold pjoin2
  rw [if_neg hb, if_neg ha, if_neg hal]

theorem joinWith_head? (c : List Char) (rest : List (List Char)) (hc : c ≠ []) :
    (joinWith ['/'] (c :: rest)).head? = c.head? := by
  cases rest with
  | nil => rfl
  | cons c2 rest2 =>
    show (c ++ '/' :: joinWith ['/'] (c2 :: rest2)).head? = c.head?
    exact List.head?_append_of_ne_nil _ hc

theorem pjoin_comps (acc : List Char) (comps : List (List Char))
    (hacc : acc ≠ []) (haccl : acc.getLast? ≠ some '/')
    (hcc : ∀ cc ∈ comps, cc ≠ [] ∧ ∀ ch ∈ cc, ch ≠ '/') (hne : comps ≠ []) :
    pjoin acc comps = acc ++ '/' :: joinWith ['/'] comps := by
  induction comps generalizing acc with
  | nil => exact absurd rfl hne
  | cons c rest ih =>
    have hc := hcc c (List.mem_cons_self c rest)
    have hstep : pjoin2 acc c = acc ++ '/' :: c := by
      refine pjoin2_eq acc c hacc haccl ?_
      cases c with
      | nil => exact absurd rfl hc.1
      | cons ch ct =>
        simp only [List.head?_cons, ne_eq, Option.some.injEq]
        exact hc.2 ch (List.mem_cons_self ch ct)
    show pjoin (pjoin2 acc c) rest = _
    rw [hstep]
    cases rest with
    | nil =>
      show pjoin (acc ++ '/' :: c) [] = acc ++ '/' :: joinWith ['/'] [c]
      rfl
    | cons c2 rest2 =>
      have hlast : (acc ++ '/' :: c).getLast? ≠ some '/' := by
        have h1 : (acc ++ '/' :: c).getLast? = c.getLast? := by
          rw [List.getLast?_append_of_ne_nil acc (by simp)]
          cases c with
          | nil => exact absurd rfl hc.1
          | cons ch ct =>
            rw [show ('/' :: ch :: ct) = ['/'] ++ (ch :: ct) from rfl,
              List.getLast?_append_of_ne_nil ['/'] (by simp)]
        rw [h1]
        cases hcl : c.getLast? with
        | none => simp
        | some lch =>
          have hlmem : lch ∈ c := List.mem_of_mem_getLast? hcl
          simp only [ne_eq, Option.some.injEq]
          exact hc.2 lch hlmem
      rw [ih (acc ++ '/' :: c) (by simp) hlast
        (fun cc h => hcc cc (List.mem_cons_of_mem c h)) (by simp)]
      show acc ++ '/' :: c ++ '/' :: joinWith ['/'] (c2 :: rest2) =
        acc ++ '/' :: joinWith ['/'] (c :: c2 :: rest2)
      simp [joinWith, List.append_assoc]

/-! ## Occurrence lemmas for `".quarantine"` (towards C8) -/

theorem qsep_cons : qsep = '.' :: "quarantine".toList := rfl

theorem qsep_ne_nil : qsep ≠ [] := by decide

theorem qsep_len : qsep.length = 11 := by decide

theorem qsep_getLast : qsep.getLast? = some 'e' := by decide

theorem qsep_no_border :
    ∀ k, k < 11 → 0 < k → ¬ (qsep.drop k <+: qsep) := by decide

theorem prefix_of_append_left (p u v : List Char) (h : p <+: u ++ v)
    (hle : p.length ≤ u.length) : p <+: u := by
  rw [List.prefix_iff_eq_take] at h ⊢
  rw [List.take_append_eq_append_take, Nat.sub_eq_zero_of_le hle,
    List.take_zero, List.append_nil] at h
  exact h

theorem prefix_append_split (p u v : List Char) (h : p <+: u ++ v)
    (hge : u.length ≤ p.length) :
    u = p.take u.length ∧ p.drop u.length <+: v := by
  obtain ⟨t, ht⟩ := h
  have hp : p = p.take u.length ++ p.drop u.length :=
    (List.take_append_drop _ _).symm
  rw [hp, List.append_assoc] at ht
  have hlen : u.length = (p.take u.length).length := by
    rw [List.length_take]
    omega
  obtain ⟨h1, h2⟩ := List.append_inj ht hlen.symm
  exact ⟨h1.symm, ⟨t, h2⟩⟩

theorem noOcc_append_of_no_dot (x y : List Char) (hx : ∀ ch ∈ x, ch ≠ '.')
    (hy : NoOcc qsep y) : NoOcc qsep (x ++ y) := by
  intro i hpre
  by_cases hi : i < x.length
  · rw [List.drop_append_eq_append_drop] at hpre
    obtain ⟨t, ht⟩ := hpre
    cases hxd : x.drop i with
    | nil =>
      have := congrArg List.length hxd
      rw [List.length_drop] at this
      simp at this
      omega
    | cons c rest =>
      rw [hxd] at ht
      have hh := congrArg List.head? ht.symm
      rw [qsep_cons] at hh
      simp at hh
      have hcx : c ∈ x := by
        have : c ∈ x.drop i := by rw [hxd]; exact List.mem_cons_self c rest
        exact List.mem_of_mem_drop this
      exact hx c hcx hh
  · push_neg at hi
    rw [List.drop_append_eq_append_drop, List.drop_eq_nil_of_le hi,
      List.nil_append] at hpre
    exact hy (i - x.length) hpre

theorem noOcc_tail (m r : List Char) (h : NoOcc qsep (m ++ '/' :: r)) :
    NoOcc qsep r := by
  intro i hpre
  apply h (m.length + 1 + i)
  rw [List.drop_append_eq_append_drop, List.drop_eq_nil_of_le (by omega),
    List.nil_append]
  have h1 : m.length + 1 + i - m.length = i + 1 := by omega
  rw [h1, List.drop_succ_cons]
  exact hpre

theorem splitSub_no_occ (s : List Char) (h : NoOcc qsep s) :
    splitSub qsep s = [s] := by
  induction s with
  | nil => rfl
  | cons x xs ih =>
    have hnb : ¬ (qsep.isPrefixOf (x :: xs) = true) := by
      intro hb
      exact h 0 (List.isPrefixOf_iff_prefix.mp hb)
    have hxs : NoOcc qsep xs := by
      intro j hj
      exact h (j + 1) (by rw [List.drop_succ_cons]; exact hj)
    rw [splitSub_cons, if_neg hnb, ih hxs]
    rfl

theorem splitSub_sep_prefix (sep b : List Char) (hsep : sep ≠ []) :
    splitSub sep (sep ++ b) = [] :: splitSub sep b := by
  cases sep with
  | nil => exact absurd rfl hsep
  | cons c cs =>
    rw [show (c :: cs) ++ b = c :: (cs ++ b) from rfl, splitSub_cons, if_pos]
    · have h1 : (c :: cs).length - 1 = cs.length := by simp
      rw [h1, List.drop_left]
    · exact List.isPrefixOf_iff_prefix.mpr ⟨b, by simp⟩

theorem splitSub_append_occ (a b : List Char)
    (ha : ∀ i < a.length, ¬ qsep <+: ((a ++ (qsep ++ b)).drop i)) :
    splitSub qsep (a ++ (qsep ++ b)) = a :: splitSub qsep b := by
  induction a with
  | nil =>
    simp only [List.nil_append]
    exact splitSub_sep_prefix qsep b qsep_ne_nil
  | cons x a ih =>
    have h0 := ha 0 (by simp)
    have hnb : ¬ (qsep.isPrefixOf (x :: (a ++ (qsep ++ b))) = true) := by
      intro hb
      exact h0 (by simpa using List.isPrefixOf_iff_prefix.mp hb)
    have ha' : ∀ i < a.length, ¬ qsep <+: ((a ++ (qsep ++ b)).drop i) := by
      intro i hi hp
      have := ha (i + 1) (by simp; omega)
      rw [show ((x :: a) ++ (qsep ++ b)) = x :: (a ++ (qsep ++ b)) from rfl,
        List.drop_succ_cons] at this
      exact this hp
    rw [show (x :: a) ++ (qsep ++ b) = x :: (a ++ (qsep ++ b)) from rfl,
      splitSub_cons, if_neg hnb, ih ha']
    rfl

theorem noPrefix_before_marker (mount rel B : List Char)
    (hnoq : NoOcc qsep (mount ++ '/' :: rel)) :
    ∀ i < (mount ++ ['/']).length,
      ¬ qsep <+: (((mount ++ ['/']) ++ (qsep ++ B)).drop i) := by
  intro i hi hpre
  have hlen_a : (mount ++ ['/']).length = mount.length + 1 := by simp
  rw [List.drop_append_eq_append_drop,
    Nat.sub_eq_zero_of_le (le_of_lt hi), List.drop_zero] at hpre
  by_cases hfit : i + 11 ≤ mount.length + 1
  · have hfit' : qsep.length ≤ ((mount ++ ['/']).drop i).length := by
      rw [List.length_drop, qsep_len, hlen_a]
      omega
    have hpm : qsep <+: (mount ++ ['/']).drop i :=
      prefix_of_append_left _ _ _ hpre hfit'
    by_cases hfit2 : i + 11 ≤ mount.length
    · have hmd : (mount ++ ['/']).drop i = mount.drop i ++ ['/'] := by
        rw [List.drop_append_eq_append_drop,
          Nat.sub_eq_zero_of_le (by omega), List.drop_zero]
      rw [hmd] at hpm
      have hm : qsep <+: mount.drop i :=
        prefix_of_append_left _ _ _ hpm
          (by rw [List.length_drop, qsep_len]; omega)
      apply hnoq i
      have hpath_drop : (mount ++ '/' :: rel).drop i = mount.drop i ++ '/' :: rel := by
        rw [List.drop_append_eq_append_drop,
          Nat.sub_eq_zero_of_le (by omega), List.drop_zero]
      rw [hpath_drop]
      exact hm.trans (List.prefix_append _ _)
    · have hklen : ((mount ++ ['/']).drop i).length = 11 := by
        rw [List.length_drop, hlen_a]
        omega
      have heq : qsep = (mount ++ ['/']).drop i :=
        List.IsPrefix.eq_of_length hpm (by rw [hklen, qsep_len])
      have hsplit2 : mount ++ ['/'] = (mount ++ ['/']).take i ++ qsep := by
        conv_lhs => rw [← List.take_append_drop i (mount ++ ['/'])]
        rw [← heq]
      have h1 : (mount ++ ['/']).getLast? = some '/' := by
        rw [List.getLast?_append_of_ne_nil mount (by simp)]
        rfl
      have h2 : (mount ++ ['/']).getLast? = some 'e' := by
        rw [hsplit2, List.getLast?_append_of_ne_nil _ qsep_ne_nil, qsep_getLast]
      rw [h1] at h2
      exact absurd h2 (by decide)
  · have hK : ((mount ++ ['/']).drop i).length = mount.length + 1 - i := by
      rw [List.length_drop, hlen_a]
    have hul : ((mount ++ ['/']).drop i).length ≤ qsep.length := by
      rw [hK, qsep_len]
      omega
    obtain ⟨-, hrest⟩ := prefix_append_split qsep _ _ hpre hul
    have hdrop_pref : qsep.drop ((mount ++ ['/']).drop i).length <+: qsep := by
      refine prefix_of_append_left _ _ _ hrest ?_
      rw [List.length_drop, qsep_len]
      omega
    refine qsep_no_border ((mount ++ ['/']).drop i).length ?_ ?_ hdrop_pref
    · rw [hK]; omega
    · rw [hK]; omega

/-! ## C8 — quarantine/restore round trip -/

theorem noOcc_of_bounded (s : List Char)
    (h : ∀ i < s.length, ¬ qsep <+: s.drop i) : NoOcc qsep s := by
  intro i hpre
  by_cases hi : i < s.length
  · exact h i hi hpre
  · push_neg at hi
    rw [List.drop_eq_nil_of_le hi] at hpre
    exact qsep_ne_nil (List.prefix_nil.mp hpre)

/-- C8 fails as stated: a file whose own path contains the segment
`".quarantine"` is quarantined to the default location, but the immediate
restore fails (`"Cannot determine original path"`, because the stored path
now contains the segment twice) and leaves the row quarantined instead of
returning `(original path, pending)`. -/
theorem c8_counterexample :
    (quarantine_one none "/mnt/a".toList "2026-10-12".toList true
        ⟨"/mnt/a/x.quarantine/v.mkv".toList, "complete"⟩).1 = none ∧
    (quarantine_one none "/mnt/a".toList "2026-10-12".toList true
        ⟨"/mnt/a/x.quarantine/v.mkv".toList, "complete"⟩).2.hashStatus =
      "quarantined" ∧
    restore_one (quarantine_one none "/mnt/a".toList "2026-10-12".toList true
        ⟨"/mnt/a/x.quarantine/v.mkv".toList, "complete"⟩).2 =
      (some "Cannot determine original path",
        (quarantine_one none "/mnt/a".toList "2026-10-12".toList true
          ⟨"/mnt/a/x.quarantine/v.mkv".toList, "complete"⟩).2) := by
  refine ⟨rfl, rfl, ?_⟩
  rfl

/-- C8 (amended): quarantine-then-restore is the identity on
`(path, hash_status := pending)` for a file quarantined to the default
location, provided the file's path has the normal-form `mount/rel` layout:
a nonempty drive mount with no trailing separator, a nonempty relative part
made of nonempty, `/`-free, non-`.`/`..` components, a date folder name
without `.` or `/` characters, and — the condition the counterexample
violates — no occurrence of the segment `".quarantine"` anywhere in the
file's path. -/
theorem c8_quarantine_restore_roundtrip (mount date : List Char)
    (comps : List (List Char)) (row : CleanupRow)
    (hm0 : mount ≠ []) (hm1 : mount.getLast? ≠ some '/')
    (hcne : comps ≠ [])
    (hcc : ∀ cc ∈ comps, cc ≠ [] ∧ cc ≠ ['.'] ∧ cc ≠ ['.', '.'] ∧
      ∀ ch ∈ cc, ch ≠ '/')
    (hdne : date ≠ []) (hdch : ∀ ch ∈ date, ch ≠ '.' ∧ ch ≠ '/')
    (hpath : row.path = mount ++ '/' :: joinWith ['/'] comps)
    (hnoq : NoOcc qsep row.path) :
    (quarantine_one none mount date true row).1 = none ∧
    restore_one (quarantine_one none mount date true row).2 =
      (none, ⟨row.path, "pending"⟩) := by
  have hcc' : ∀ cc ∈ comps, cc ≠ [] ∧ cc ≠ ['.'] ∧ ∀ ch ∈ cc, ch ≠ '/' :=
    fun cc h => ⟨(hcc cc h).1, (hcc cc h).2.1, (hcc cc h).2.2.2⟩
  have hccp : ∀ cc ∈ comps, cc ≠ [] ∧ ∀ ch ∈ cc, ch ≠ '/' :=
    fun cc h => ⟨(hcc cc h).1, (hcc cc h).2.2.2⟩
  -- the quarantine destination, step by step
  have hb1 : pjoin2 mount qsep = mount ++ '/' :: qsep :=
    pjoin2_eq mount qsep hm0 hm1 (by decide)
  have hlast1 : (mount ++ '/' :: qsep).getLast? = some 'e' := by
    rw [List.getLast?_append_of_ne_nil mount (by simp),
      show ('/' :: qsep) = ['/'] ++ qsep from rfl,
      List.getLast?_append_of_ne_nil ['/'] qsep_ne_nil, qsep_getLast]
  have hdhead : date.head? ≠ some '/' := by
    cases date with
    | nil => exact absurd rfl hdne
    | cons dc dt =>
      simp only [List.head?_cons, ne_eq, Option.some.injEq]
      exact (hdch dc (List.mem_cons_self dc dt)).2
  have hb2 : pjoin2 (mount ++ '/' :: qsep) date =
      (mount ++ '/' :: qsep) ++ '/' :: date :=
    pjoin2_eq _ _ (by simp) (by rw [hlast1]; decide) hdhead
  have hrel : relpath row.path mount = joinWith ['/'] comps := by
    rw [hpath]
    exact relpath_under mount comps hcne hcc'
  have hdlast : date.getLast? ≠ some '/' := by
    cases hdl : date.getLast? with
    | none => simp
    | some ldc =>
      simp only [ne_eq, Option.some.injEq]
      exact (hdch ldc (List.mem_of_mem_getLast? hdl)).2
  have hlast2 : ((mount ++ '/' :: qsep) ++ '/' :: date).getLast? ≠ some '/' := by
    rw [List.getLast?_append_of_ne_nil _ (by simp),
      show ('/' :: date) = ['/'] ++ date from rfl,
      List.getLast?_append_of_ne_nil ['/'] hdne]
    exact hdlast
  have hjwhead : (joinWith ['/'] comps).head? ≠ some '/' := by
    cases comps with
    | nil => exact absurd rfl hcne
    | cons c rest =>
      have hc := hcc c (List.mem_cons_self c rest)
      rw [joinWith_head? c rest hc.1]
      cases c with
      | nil => exact absurd rfl hc.1
      | cons ch ct =>
        simp only [List.head?_cons, ne_eq, Option.some.injEq]
        exact hc.2.2.2 ch (List.mem_cons_self ch ct)
  have hb3 : pjoin2 ((mount ++ '/' :: qsep) ++ '/' :: date)
      (joinWith ['/'] comps) =
      ((mount ++ '/' :: qsep) ++ '/' :: date) ++ '/' :: joinWith ['/'] comps :=
    pjoin2_eq _ _ (by simp) hlast2 hjwhead
  have hshape : ((mount ++ '/' :: qsep) ++ '/' :: date) ++
      '/' :: joinWith ['/'] comps =
      (mount ++ ['/']) ++ (qsep ++ ('/' :: (date ++ '/' :: joinWith ['/'] comps))) := by
    simp [List.append_assoc]
  have hdest : (quarantine_one none mount date true row).2 =
      ⟨(mount ++ ['/']) ++
        (qsep ++ ('/' :: (date ++ '/' :: joinWith ['/'] comps))),
        "quarantined"⟩ := by
    show (⟨pjoin2 (pjoin2 (pjoin2 mount ".quarantine".toList) date)
        (relpath row.path mount), "quarantined"⟩ : CleanupRow) = _
    rw [show ".quarantine".toList = qsep from rfl, hb1, hb2, hrel, hb3,
      hshape]
  -- occurrence hygiene of the stored path
  have hnoq' : NoOcc qsep (mount ++ '/' :: joinWith ['/'] comps) := by
    rw [hpath] at hnoq
    exact hnoq
  have hrelno : NoOcc qsep (joinWith ['/'] comps) := noOcc_tail _ _ hnoq'
  have hBno : NoOcc qsep ('/' :: (date ++ '/' :: joinWith ['/'] comps)) := by
    have hx : ∀ ch ∈ ('/' :: date ++ ['/']), ch ≠ '.' := by
      intro ch hch
      rcases List.mem_append.mp hch with hch | hch
      · rcases List.mem_cons.mp hch with rfl | hch
        · decide
        · exact (hdch ch hch).1
      · rcases List.mem_singleton.mp hch with rfl
        decide
    have h := noOcc_append_of_no_dot ('/' :: date ++ ['/'])
      (joinWith ['/'] comps) hx hrelno
    have hsh : ('/' :: date ++ ['/']) ++ joinWith ['/'] comps =
        '/' :: (date ++ '/' :: joinWith ['/'] comps) := by
      simp [List.append_assoc]
    rw [hsh] at h
    exact h
  have hparts : splitSub qsep ((mount ++ ['/']) ++
      (qsep ++ ('/' :: (date ++ '/' :: joinWith ['/'] comps)))) =
      [mount ++ ['/'], '/' :: (date ++ '/' :: joinWith ['/'] comps)] := by
    rw [splitSub_append_occ _ _ (noPrefix_before_marker mount
      (joinWith ['/'] comps) _ hnoq'), splitSub_no_occ _ hBno]
  -- the restore computation
  refine ⟨rfl, ?_⟩
  rw [hdest]
  unfold restore_one
  rw [if_neg (fun h => h rfl)]
  rw [hparts]
  rw [if_pos (by rfl)]
  simp only [List.getD, List.get?, Option.getD_some]
  have hdrive : rstripChar '/' (mount ++ ['/']) = mount := by
    rw [rstripChar_append_sep, rstripChar_eq_self mount hm1]
  have hsc : splitChar '/' ('/' :: (date ++ '/' :: joinWith ['/'] comps)) =
      [] :: date :: comps := by
    rw [show ('/' :: (date ++ '/' :: joinWith ['/'] comps)) =
      [] ++ '/' :: (date ++ '/' :: joinWith ['/'] comps) from rfl,
      splitChar_append_cons, splitChar_append_cons,
      splitChar_no_sep '/' date (fun ch h => (hdch ch h).2),
      splitChar_joinWith comps hcne (fun cc h => (hcc cc h).2.2.2)]
    rfl
  rw [hdrive, hsc]
  show (none, (⟨pjoin mount ((([] : List Char) :: date :: comps).drop 2),
    "pending"⟩ : CleanupRow)) = _
  rw [show ((([] : List Char) :: date :: comps).drop 2) = comps from rfl,
    pjoin_comps mount comps hm0 hm1 hccp hcne, ← hpath]

/-- Witness for C8 (amended) at a concrete file `/mnt/a/media/x.mkv`. -/
theorem c8_quarantine_restore_roundtrip_witness :
    restore_one (quarantine_one none "/mnt/a".toList "2026-10-12".toList true
        ⟨"/mnt/a/media/x.mkv".toList, "complete"⟩).2 =
      (none, ⟨"/mnt/a/media/x.mkv".toList, "pending"⟩) :=
  (c8_quarantine_restore_roundtrip "/mnt/a".toList "2026-10-12".toList
    ["media".toList, "x.mkv".toList] ⟨"/mnt/a/media/x.mkv".toList, "complete"⟩
    (by decide) (by decide) (by decide) (by decide) (by decide) (by decide)
    (by decide) (noOcc_of_bounded _ (by decide))).2

end Milestone
